import Mathlib

/-!
Verification of the tfboyd/agents (TF-Agents) repository claims.

The file shallowly embeds the parts of the code the claims are about:
the uniform replay buffer and its frame store, the TFPyEnvironment lock
protocol and time-step cache, the PPO train/eval op graph, the PPO policy
distribution step, MaskedCategorical, and BaseV2.train validation.
-/

set_option maxRecDepth 4000

namespace TFAgents

/-! ## PyUniformReplayBuffer

Modelled from the spec: the module py_uniform_replay_buffer.py is not
part of the provided sources (only its test is), so the buffer is
modelled from the spec sentence "fixed-capacity circular buffer over
arbitrary structured records, with random transition sampling that never
wraps across the write head", with the test file as its caller contract:
records are written at a circular write head cur_id, size saturates at
capacity, and get_next draws a random start offset among the
size - num_steps + 1 positions that do not wrap across the write head
(offsets counted from the oldest stored record when the buffer is full).
The randomness is made explicit: get_next takes the random draw r and
reduces it modulo the number of eligible start positions. -/

structure PyUniformReplayBuffer (α : Type) where
  capacity : Nat
  storage : Nat → α
  cur_id : Nat
  size : Nat

namespace PyUniformReplayBuffer

/-- A fresh buffer of the given capacity; every slot holds the default d. -/
def empty (C : Nat) (d : α) : PyUniformReplayBuffer α :=
  ⟨C, fun _ => d, 0, 0⟩

/-- Add one record at the write head; the head advances circularly and the
size saturates at the capacity. -/
def add (b : PyUniformReplayBuffer α) (x : α) : PyUniformReplayBuffer α :=
  ⟨b.capacity,
   fun s => if s = b.cur_id then x else b.storage s,
   (b.cur_id + 1) % b.capacity,
   min (b.size + 1) b.capacity⟩

/-- Add a list of records in order. -/
def addAll (b : PyUniformReplayBuffer α) (xs : List α) : PyUniformReplayBuffer α :=
  xs.foldl add b

/-- Sample num_steps consecutive records.  The random draw r is reduced
modulo the number size - num_steps + 1 of eligible start offsets; when the
buffer is full the offset is taken from the write head (the oldest stored
record), so a sample never wraps across the head. -/
def get_next (b : PyUniformReplayBuffer α) (num_steps r : Nat) : Option (List α) :=
  if b.size < num_steps ∨ num_steps = 0 then none
  else
    let span := b.size - num_steps + 1
    let idx0 := r % span
    let idx := if b.size = b.capacity then idx0 + b.cur_id else idx0
    some ((List.range num_steps).map (fun s => b.storage ((idx + s) % b.capacity)))

/-- The first record of a two-step sample. -/
def sampleFirst (b : PyUniformReplayBuffer α) (r : Nat) : Option α :=
  (b.get_next 2 r).bind List.head?

/-- The buffer obtained by adding the records 0, 1, ..., n-1 (each record
labelled by its add position) to a fresh buffer of capacity C. -/
def iotaBuf (C n : Nat) : PyUniformReplayBuffer Nat :=
  (empty C 0).addAll (List.range n)

theorem addAll_append (b : PyUniformReplayBuffer α) (xs : List α) (x : α) :
    b.addAll (xs ++ [x]) = (b.addAll xs).add x := by
  simp [addAll]

theorem iotaBuf_succ (C n : Nat) : iotaBuf C (n + 1) = (iotaBuf C n).add n := by
  simp [iotaBuf, List.range_succ, addAll_append]

theorem capacity_addAll (xs : List α) (b : PyUniformReplayBuffer α) :
    (b.addAll xs).capacity = b.capacity := by
  induction xs generalizing b with
  | nil => rfl
  | cons x xs ih => simpa [addAll, add] using ih (b.add x)

theorem iotaBuf_capacity (C n : Nat) : (iotaBuf C n).capacity = C :=
  capacity_addAll _ _

theorem iotaBuf_cur_id (C n : Nat) (hC : 0 < C) : (iotaBuf C n).cur_id = n % C := by
  induction n with
  | zero => simp [iotaBuf, addAll, empty, Nat.mod_eq_of_lt hC]
  | succ n ih =>
      rw [iotaBuf_succ]
      simp only [add, iotaBuf_capacity, ih]
      rw [Nat.mod_add_mod]

theorem iotaBuf_size (C n : Nat) : (iotaBuf C n).size = min n C := by
  induction n with
  | zero => simp [iotaBuf, addAll, empty]
  | succ n ih =>
      rw [iotaBuf_succ]
      simp only [add, iotaBuf_capacity, ih]
      omega

/-- Partial fill: as long as at most C records have been added, slot j
holds record j. -/
theorem iotaBuf_storage_partial (C n : Nat) (hn : n ≤ C) :
    ∀ j < n, (iotaBuf C n).storage j = j := by
  induction n with
  | zero => intro j hj; omega
  | succ n ih =>
      intro j hj
      rw [iotaBuf_succ]
      have hcur : (iotaBuf C n).cur_id = n % C := iotaBuf_cur_id C n (by omega)
      have hn' : n < C := by omega
      simp only [add, hcur, Nat.mod_eq_of_lt hn']
      by_cases hje : j = n
      · simp [hje]
      · have hj' : j < n := by omega
        simp only [hje, if_false]
        exact ih (by omega) j hj'

/-- Full buffer: after n ≥ C adds, reading C slots starting at the write
head yields the last C records in order: the slot at offset j from the
head holds record n - C + j. -/
theorem iotaBuf_storage_full (C : Nat) (hC : 0 < C) :
    ∀ n, C ≤ n → ∀ j < C, (iotaBuf C n).storage ((n % C + j) % C) = n - C + j := by
  intro n
  induction n with
  | zero => intro h j hj; omega
  | succ n ih =>
      intro hCn j hj
      by_cases hbase : n < C
      · -- n + 1 = C : the buffer has just become full
        have hnC : n + 1 = C := by omega
        have hmod : ((n + 1) % C + j) % C = j := by
          rw [hnC, Nat.mod_self, Nat.zero_add, Nat.mod_eq_of_lt hj]
        rw [hmod]
        have := iotaBuf_storage_partial C (n + 1) (by omega) j (by omega)
        rw [this]
        omega
      · -- n ≥ C : one more overwrite at the head
        have hCn' : C ≤ n := by omega
        rw [iotaBuf_succ]
        have hcur : (iotaBuf C n).cur_id = n % C := iotaBuf_cur_id C n hC
        have hslot : ((n + 1) % C + j) % C = (n % C + (j + 1)) % C := by
          rw [Nat.mod_add_mod, Nat.mod_add_mod]
          congr 1
          omega
        simp only [add, hcur]
        rw [hslot]
        by_cases hlast : j = C - 1
        · have hcc : (n % C + (j + 1)) % C = n % C := by
            have h3 : n % C + (j + 1) = n % C + C := by omega
            rw [h3, Nat.add_mod_right]
            exact Nat.mod_mod_of_dvd n dvd_rfl
          rw [hcc, if_pos rfl]
          omega
        · have hj1 : j + 1 < C := by omega
          have hne : (n % C + (j + 1)) % C ≠ n % C := by
            have hm : n % C < C := Nat.mod_lt _ hC
            by_cases hlt : n % C + (j + 1) < C
            · rw [Nat.mod_eq_of_lt hlt]; omega
            · have h2 : n % C + (j + 1) - C < C := by omega
              rw [Nat.mod_eq_sub_mod (by omega), Nat.mod_eq_of_lt h2]
              omega
          rw [if_neg hne, ih hCn' (j + 1) hj1]
          omega

/-- Every slot of a full buffer holds one of the last C records. -/
theorem iotaBuf_slot_mem (C n : Nat) (hC : 0 < C) (hn : C ≤ n) :
    ∀ s < C, ∃ j < C, (iotaBuf C n).storage s = n - C + j := by
  intro s hs
  have hm : n % C < C := Nat.mod_lt _ hC
  refine ⟨(s + (C - n % C)) % C, Nat.mod_lt _ hC, ?_⟩
  have hslot : (n % C + (s + (C - n % C)) % C) % C = s := by
    rw [Nat.add_mod_mod]
    have : n % C + (s + (C - n % C)) = s + C := by omega
    rw [this, Nat.add_mod_right, Nat.mod_eq_of_lt hs]
  have := iotaBuf_storage_full C hC n hn ((s + (C - n % C)) % C) (Nat.mod_lt _ hC)
  rw [hslot] at this
  exact this

/-- Characterization of a two-step sample from a full buffer: the random
draw r selects start offset r % (C - 1) from the oldest record, and the
sample is the pair of consecutive records at that offset. -/
theorem get_next_full_two (C n r : Nat) (hC : 2 ≤ C) (hn : C ≤ n) :
    (iotaBuf C n).get_next 2 r =
      some [n - C + r % (C - 1), n - C + r % (C - 1) + 1] := by
  have hC0 : 0 < C := by omega
  have hsize : (iotaBuf C n).size = C := by rw [iotaBuf_size]; omega
  have hcap : (iotaBuf C n).capacity = C := iotaBuf_capacity C n
  have hcur : (iotaBuf C n).cur_id = n % C := iotaBuf_cur_id C n hC0
  have hidx0 : r % (C - 1) < C - 1 := Nat.mod_lt _ (by omega)
  simp only [get_next, hsize, hcap, hcur, eq_self_iff_true, if_true,
    show C - 2 + 1 = C - 1 from by omega]
  rw [if_neg (show ¬(C < 2 ∨ 2 = 0) by omega)]
  rw [show List.range 2 = [0, 1] from rfl]
  simp only [List.map_cons, List.map_nil]
  have h0 : (r % (C - 1) + n % C + 0) % C = (n % C + r % (C - 1)) % C := by
    congr 1
    omega
  have h1 : (r % (C - 1) + n % C + 1) % C = (n % C + (r % (C - 1) + 1)) % C := by
    congr 1
    omega
  rw [h0, h1,
      iotaBuf_storage_full C hC0 n hn (r % (C - 1)) (by omega),
      iotaBuf_storage_full C hC0 n hn (r % (C - 1) + 1) (by omega),
      ← Nat.add_assoc]

end PyUniformReplayBuffer

open PyUniformReplayBuffer

/-- C1: for every buffer that has wrapped around (n ≥ C adds into capacity
C) and every random draw r, a two-step sample never crosses the write
head: its first record is never the most recently written record n - 1 and
its second record is never the oldest stored record n - C. -/
theorem sample_does_not_cross_head (C n r a b : Nat) (hC : 2 ≤ C) (hn : C ≤ n)
    (h : (iotaBuf C n).get_next 2 r = some [a, b]) :
    a ≠ n - 1 ∧ b ≠ n - C := by
  rw [get_next_full_two C n r hC hn] at h
  simp only [Option.some.injEq, List.cons.injEq, and_true] at h
  have hidx0 : r % (C - 1) < C - 1 := Nat.mod_lt _ (by omega)
  omega

/-- Witness for C1 at capacity 3, 5 adds, draw 1: the sample is (3, 4),
whose first record is not 4 = 5 - 1 and whose second is not 2 = 5 - 3. -/
theorem sample_does_not_cross_head_witness : 3 ≠ 5 - 1 ∧ 4 ≠ 5 - 3 :=
  sample_does_not_cross_head 3 5 1 3 4 (by decide) (by decide) (by decide)

/-- C2: after n ≥ C adds into capacity C the buffer stores exactly the
last C records: its size is C, every stored record is one of the most
recent C additions, every one of the most recent C additions is stored,
and every record returned by get_next is one of the most recent C
additions. -/
theorem replay_buffer_circular (C n : Nat) (hC : 0 < C) (hn : C ≤ n) :
    (iotaBuf C n).size = C ∧
    (∀ s < C, n - C ≤ (iotaBuf C n).storage s ∧ (iotaBuf C n).storage s < n) ∧
    (∀ v, n - C ≤ v → v < n → ∃ s < C, (iotaBuf C n).storage s = v) ∧
    (∀ ns r xs, (iotaBuf C n).get_next ns r = some xs →
       ∀ x ∈ xs, n - C ≤ x ∧ x < n) := by
  have hbound : ∀ s < C, n - C ≤ (iotaBuf C n).storage s ∧ (iotaBuf C n).storage s < n := by
    intro s hs
    obtain ⟨j, hj, hv⟩ := iotaBuf_slot_mem C n hC hn s hs
    rw [hv]
    omega
  refine ⟨by rw [iotaBuf_size]; omega, hbound, ?_, ?_⟩
  · intro v hv1 hv2
    have hj : v - (n - C) < C := by omega
    refine ⟨(n % C + (v - (n - C))) % C, Nat.mod_lt _ hC, ?_⟩
    rw [iotaBuf_storage_full C hC n hn (v - (n - C)) hj]
    omega
  · intro ns r xs hxs x hx
    by_cases hcond : (iotaBuf C n).size < ns ∨ ns = 0
    · simp [get_next, if_pos hcond] at hxs
    · simp only [get_next, if_neg hcond, Option.some.injEq] at hxs
      rw [← hxs] at hx
      obtain ⟨s, _, rfl⟩ := List.mem_map.mp hx
      refine hbound _ ?_
      rw [iotaBuf_capacity]
      exact Nat.mod_lt _ hC

/-- Witness for C2 at capacity 3, 5 adds: the buffer size is 3 and slot 0
holds one of the records 2, 3, 4. -/
theorem replay_buffer_circular_witness :
    (iotaBuf 3 5).size = 3 ∧
      (5 - 3 ≤ (iotaBuf 3 5).storage 0 ∧ (iotaBuf 3 5).storage 0 < 5) :=
  ⟨(replay_buffer_circular 3 5 (by decide) (by decide)).1,
   (replay_buffer_circular 3 5 (by decide) (by decide)).2.1 0 (by decide)⟩

/-- C7: sampling is uniform over the eligible records: for a full buffer
of capacity C, every eligible first record v (any stored record except the
most recently written one, n - C ≤ v ≤ n - 2) is produced by exactly one
of the C - 1 equiprobable random draws, hence with probability
1 / (C - 1), the reciprocal of the number of eligible records. -/
theorem sampling_uniform (C n v : Nat) (hC : 2 ≤ C) (hn : C ≤ n)
    (hv1 : n - C ≤ v) (hv2 : v ≤ n - 2) :
    ((Finset.range (C - 1)).filter
        (fun r => sampleFirst (iotaBuf C n) r = some v)).card = 1 ∧
    (((Finset.range (C - 1)).filter
        (fun r => sampleFirst (iotaBuf C n) r = some v)).card : ℚ) / ((C : ℚ) - 1)
      = 1 / ((C : ℚ) - 1) := by
  have key : ∀ r, sampleFirst (iotaBuf C n) r = some (n - C + r % (C - 1)) := by
    intro r
    unfold sampleFirst
    rw [get_next_full_two C n r hC hn]
    rfl
  have hset : (Finset.range (C - 1)).filter
      (fun r => sampleFirst (iotaBuf C n) r = some v) = {v - (n - C)} := by
    ext r
    simp only [Finset.mem_filter, Finset.mem_range, Finset.mem_singleton, key,
      Option.some.injEq]
    constructor
    · rintro ⟨hr, heq⟩
      rw [Nat.mod_eq_of_lt hr] at heq
      omega
    · rintro rfl
      have hrlt : v - (n - C) < C - 1 := by omega
      rw [Nat.mod_eq_of_lt hrlt]
      exact ⟨hrlt, by omega⟩
  rw [hset, Finset.card_singleton]
  exact ⟨rfl, by norm_num⟩

/-- Witness for C7 at capacity 3, 5 adds, eligible record 2: exactly one of
the two possible draws yields it. -/
theorem sampling_uniform_witness :
    ((Finset.range (3 - 1)).filter
        (fun r => sampleFirst (iotaBuf 3 5) r = some 2)).card = 1 :=
  (sampling_uniform 3 5 2 (by decide) (by decide) (by decide) (by decide)).1

/-! ## FrameBuffer

Modelled from the spec: FrameBuffer lives in py_uniform_replay_buffer.py,
which is not part of the provided sources (only its test is).  Per the
spec it is a "content-addressed store of raw observation frames with
reference counting": the store maps the content hash of a frame to the frame
and its reference count; add_frame returns the content hash as the
handle, bumping the count when the content is already present; on_delete
decrements the count of each handle and removes entries whose count
reaches zero.  Content addressing is modelled with the content of the frame
itself as its hash (an injective hash). -/

structure FrameBuffer (α : Type) where
  frames : List (α × Nat)

namespace FrameBuffer

variable {α : Type} [DecidableEq α]

/-- The empty store. -/
def empty : FrameBuffer α := ⟨[]⟩

/-- Reference count held for a handle, if present. -/
def lookup : List (α × Nat) → α → Option Nat
  | [], _ => none
  | (k, c) :: rest, h => if k = h then some c else lookup rest h

/-- Insert a frame: bump its count if its content is already stored,
store it with count 1 otherwise. -/
def bump : List (α × Nat) → α → List (α × Nat)
  | [], h => [(h, 1)]
  | (k, c) :: rest, h =>
      if k = h then (k, c + 1) :: rest else (k, c) :: bump rest h

/-- Release one reference to a handle: decrement its count, removing the
entry when the count reaches zero. -/
def release : List (α × Nat) → α → List (α × Nat)
  | [], _ => []
  | (k, c) :: rest, h =>
      if k = h then (if c ≤ 1 then rest else (k, c - 1) :: rest)
      else (k, c) :: release rest h

/-- Add a frame and return its handle (the content hash) with the new
store. -/
def add_frame (fb : FrameBuffer α) (f : α) : α × FrameBuffer α :=
  (f, ⟨bump fb.frames f⟩)

/-- Release the given list of handles. -/
def on_delete (fb : FrameBuffer α) (hs : List α) : FrameBuffer α :=
  ⟨hs.foldl release fb.frames⟩

/-- Number of distinct frames stored. -/
def length (fb : FrameBuffer α) : Nat := fb.frames.length

end FrameBuffer

open FrameBuffer

/-- C3: FrameBuffer is a content-addressed, reference-counted store:
add_frame returns the content hash as the handle, adding the same content
twice yields the same handle and stores one copy with count 2, deleting a
handle decrements its count and removes the frame when the count reaches
zero; in particular after adding one frame and deleting its handle the
length is 0, and after adding two distinct frames and deleting one handle
the length is 1. -/
theorem frame_buffer_refcount (f g : α) [DecidableEq α] (hfg : f ≠ g) :
    (add_frame (FrameBuffer.empty : FrameBuffer α) f).1 = f ∧
    (add_frame (add_frame (FrameBuffer.empty : FrameBuffer α) f).2 f).1
      = (add_frame (FrameBuffer.empty : FrameBuffer α) f).1 ∧
    length (add_frame (add_frame (FrameBuffer.empty : FrameBuffer α) f).2 f).2 = 1 ∧
    lookup (add_frame (add_frame (FrameBuffer.empty : FrameBuffer α) f).2 f).2.frames f
      = some 2 ∧
    length (on_delete (add_frame (FrameBuffer.empty : FrameBuffer α) f).2 [f]) = 0 ∧
    length (on_delete (add_frame (add_frame (FrameBuffer.empty : FrameBuffer α) f).2 g).2 [g])
      = 1 ∧
    length (on_delete (add_frame (add_frame (FrameBuffer.empty : FrameBuffer α) f).2 f).2 [f])
      = 1 ∧
    length (on_delete
      (on_delete (add_frame (add_frame (FrameBuffer.empty : FrameBuffer α) f).2 f).2 [f]) [f])
      = 0 := by
  refine ⟨rfl, rfl, ?_, ?_, ?_, ?_, ?_, ?_⟩ <;>
    simp [add_frame, on_delete, FrameBuffer.empty, length, bump, release, lookup, hfg]

/-- Witness for C3 with the distinct frames 0 and 1: after adding frame 0
and deleting its handle the store is empty. -/
theorem frame_buffer_refcount_witness :
    length (on_delete (add_frame (FrameBuffer.empty : FrameBuffer Nat) 0).2 [0]) = 0 :=
  (frame_buffer_refcount 0 1 (by decide)).2.2.2.2.1

/-! ## TFPyEnvironment: lock protocol (tf_py_environment.py)

The wrapped callbacks of step, reset and current_time_step all run inside
_check_not_called_concurrently(self._lock): a non-blocking acquire that
raises RuntimeError when the lock is already held, and otherwise runs the
callback body (which touches the environment) and releases the lock in a
finally block.  The protocol is embedded as a transition system over
thread phases: acquire succeeds only when the lock is free and is the
only transition that executes the environment; a failed acquire moves the
thread to an errored phase (the RuntimeError) without touching the
environment. -/

namespace TFPyEnvironment

inductive Phase
  | idle
  | running
  | finished
  | errored
deriving DecidableEq

/-- Global state: the shared threading.Lock, the phase of each thread, and how
many times each thread has executed its callback on the environment. -/
structure LockSystem where
  lock : Bool
  phase : Nat → Phase
  envCalls : Nat → Nat

/-- At construction the lock is free, no thread has started and the
environment is untouched. -/
def initSystem : LockSystem := ⟨false, fun _ => .idle, fun _ => 0⟩

def setPhase (p : Nat → Phase) (i : Nat) (v : Phase) : Nat → Phase :=
  fun j => if j = i then v else p j

def bumpCalls (c : Nat → Nat) (i : Nat) : Nat → Nat :=
  fun j => if j = i then c j + 1 else c j

/-- One scheduler step of _check_not_called_concurrently: a successful
non-blocking acquire runs the callback on the environment; an acquire
while the lock is held raises RuntimeError without touching the
environment; a release ends the critical section. -/
inductive Step : LockSystem → LockSystem → Prop
  | acquire (s : LockSystem) (i : Nat) :
      s.lock = false → s.phase i = .idle →
      Step s ⟨true, setPhase s.phase i .running, bumpCalls s.envCalls i⟩
  | acquireFail (s : LockSystem) (i : Nat) :
      s.lock = true → s.phase i = .idle →
      Step s ⟨s.lock, setPhase s.phase i .errored, s.envCalls⟩
  | unlock (s : LockSystem) (i : Nat) :
      s.phase i = .running →
      Step s ⟨false, setPhase s.phase i .finished, s.envCalls⟩

inductive Reachable : LockSystem → Prop
  | refl : Reachable initSystem
  | step {s s' : LockSystem} : Reachable s → Step s s' → Reachable s'

/-- The lock invariant: the lock is held whenever a callback runs, at most
one callback runs at a time, idle threads have not touched the
environment, and a thread that raised RuntimeError never touched it. -/
def Inv (s : LockSystem) : Prop :=
  (s.lock = false → ∀ i, s.phase i ≠ .running) ∧
  (∀ i j, s.phase i = .running → s.phase j = .running → i = j) ∧
  (∀ i, s.phase i = .idle → s.envCalls i = 0) ∧
  (∀ i, s.phase i = .errored → s.envCalls i = 0)

theorem inv_init : Inv initSystem := by
  refine ⟨fun _ i => ?_, fun i j hi hj => ?_, fun i h => rfl, fun i h => ?_⟩
  · simp [initSystem]
  · simp [initSystem] at hi
  · simp [initSystem] at h

theorem inv_step {s s' : LockSystem} (hs : Inv s) (h : Step s s') : Inv s' := by
  obtain ⟨h1, h2, h3, h4⟩ := hs
  cases h with
  | acquire i hl hp =>
      refine ⟨?_, ?_, ?_, ?_⟩
      · intro hfalse
        simp at hfalse
      · intro a b ha hb
        simp only [setPhase] at ha hb
        by_cases hai : a = i
        · by_cases hbi : b = i
          · rw [hai, hbi]
          · rw [if_neg hbi] at hb
            exact absurd hb (h1 hl b)
        · rw [if_neg hai] at ha
          exact absurd ha (h1 hl a)
      · intro a ha
        simp only [setPhase] at ha
        by_cases hai : a = i
        · rw [if_pos hai] at ha
          simp at ha
        · rw [if_neg hai] at ha
          simp only [bumpCalls, if_neg hai]
          exact h3 a ha
      · intro a ha
        simp only [setPhase] at ha
        by_cases hai : a = i
        · rw [if_pos hai] at ha
          simp at ha
        · rw [if_neg hai] at ha
          simp only [bumpCalls, if_neg hai]
          exact h4 a ha
  | acquireFail i hl hp =>
      refine ⟨?_, ?_, ?_, ?_⟩
      · intro hfalse
        rw [hl] at hfalse
        exact absurd hfalse (by simp)
      · intro a b ha hb
        simp only [setPhase] at ha hb
        by_cases hai : a = i
        · rw [if_pos hai] at ha
          simp at ha
        · by_cases hbi : b = i
          · rw [if_pos hbi] at hb
            simp at hb
          · rw [if_neg hai] at ha
            rw [if_neg hbi] at hb
            exact h2 a b ha hb
      · intro a ha
        simp only [setPhase] at ha
        by_cases hai : a = i
        · rw [if_pos hai] at ha
          simp at ha
        · rw [if_neg hai] at ha
          exact h3 a ha
      · intro a ha
        simp only [setPhase] at ha
        by_cases hai : a = i
        · rw [hai]
          exact h3 i hp
        · rw [if_neg hai] at ha
          exact h4 a ha
  | unlock i hp =>
      refine ⟨?_, ?_, ?_, ?_⟩
      · intro _ a
        simp only [setPhase]
        by_cases hai : a = i
        · rw [if_pos hai]
          simp
        · rw [if_neg hai]
          intro hrun
          exact hai (h2 a i hrun hp)
      · intro a b ha hb
        simp only [setPhase] at ha hb
        by_cases hai : a = i
        · rw [if_pos hai] at ha
          simp at ha
        · by_cases hbi : b = i
          · rw [if_pos hbi] at hb
            simp at hb
          · rw [if_neg hai] at ha
            rw [if_neg hbi] at hb
            exact h2 a b ha hb
      · intro a ha
        simp only [setPhase] at ha
        by_cases hai : a = i
        · rw [if_pos hai] at ha
          simp at ha
        · rw [if_neg hai] at ha
          exact h3 a ha
      · intro a ha
        simp only [setPhase] at ha
        by_cases hai : a = i
        · rw [if_pos hai] at ha
          simp at ha
        · rw [if_neg hai] at ha
          exact h4 a ha

theorem inv_reachable {s : LockSystem} (h : Reachable s) : Inv s := by
  induction h with
  | refl => exact inv_init
  | step _ hstep ih => exact inv_step ih hstep

/-- A reachable state in which thread 0 holds the lock and runs. -/
def exampleLocked : LockSystem :=
  ⟨true, setPhase (fun _ => .idle) 0 .running, bumpCalls (fun _ => 0) 0⟩

/-- A reachable state in which thread 1 attempted a concurrent execution
while thread 0 was running and raised RuntimeError. -/
def exampleErrored : LockSystem :=
  ⟨true, setPhase (setPhase (fun _ => .idle) 0 .running) 1 .errored,
   bumpCalls (fun _ => 0) 0⟩

end TFPyEnvironment

/-- C4: TFPyEnvironment serializes the wrapped step/reset/current_time_step
callbacks: in every reachable state of the lock protocol at most one
callback is running (mutual exclusion), and every thread whose concurrent
attempt raised RuntimeError has never executed its callback on the
environment. -/
theorem tf_py_environment_serialized (s : TFPyEnvironment.LockSystem)
    (h : TFPyEnvironment.Reachable s) :
    (∀ i j, s.phase i = .running → s.phase j = .running → i = j) ∧
    (∀ i, s.phase i = .errored → s.envCalls i = 0) := by
  obtain ⟨_, h2, _, h4⟩ := TFPyEnvironment.inv_reachable h
  exact ⟨h2, h4⟩

/-- Witness for C4: in the reachable state where thread 0 runs and thread
1 raised RuntimeError on its concurrent attempt, thread 1 never touched the
environment. -/
theorem tf_py_environment_serialized_witness :
    TFPyEnvironment.exampleErrored.envCalls 1 = 0 := by
  have h1 : TFPyEnvironment.Reachable TFPyEnvironment.exampleLocked :=
    TFPyEnvironment.Reachable.step TFPyEnvironment.Reachable.refl
      (TFPyEnvironment.Step.acquire TFPyEnvironment.initSystem 0 rfl rfl)
  have h2 : TFPyEnvironment.Reachable TFPyEnvironment.exampleErrored :=
    TFPyEnvironment.Reachable.step h1
      (TFPyEnvironment.Step.acquireFail TFPyEnvironment.exampleLocked 1 rfl rfl)
  exact (tf_py_environment_serialized TFPyEnvironment.exampleErrored h2).2 1 rfl

/-! ## TFPyEnvironment: time-step cache (tf_py_environment.py)

Sequential embedding of the py_func callback bodies: the wrapped Python
environment is a pair of reset/step functions on an environment state;
the TFPyEnvironment keeps self._time_step, set to None in __init__.
_current_time_step resets the environment when the cache is None and
returns the cached time step otherwise; _reset and _step always call the
environment and overwrite the cache.  Counters record how often the
often the reset and step of the environment were executed. -/

namespace TFPyEnvironment

structure PyEnv (σ τ : Type) where
  resetFn : σ → σ × τ
  stepFn : σ → Int → σ × τ

structure EnvState (σ τ : Type) where
  envState : σ
  resetCount : Nat
  stepCount : Nat
  time_step : Option τ

/-- The state right after __init__: self._time_step = None and the
environment untouched. -/
def mkEnvState (s0 : σ) : EnvState σ τ := ⟨s0, 0, 0, none⟩

/-- The _current_time_step py_func body: reset the environment only when
no time step is cached, otherwise return the cache unchanged. -/
def current_time_step (env : PyEnv σ τ) (s : EnvState σ τ) : τ × EnvState σ τ :=
  match s.time_step with
  | none =>
      ((env.resetFn s.envState).2,
       ⟨(env.resetFn s.envState).1, s.resetCount + 1, s.stepCount,
        some (env.resetFn s.envState).2⟩)
  | some t => (t, s)

/-- The _reset py_func body: always reset and cache the new time step. -/
def reset (env : PyEnv σ τ) (s : EnvState σ τ) : EnvState σ τ :=
  ⟨(env.resetFn s.envState).1, s.resetCount + 1, s.stepCount,
   some (env.resetFn s.envState).2⟩

/-- The _step py_func body: always step and cache the new time step. -/
def step (env : PyEnv σ τ) (s : EnvState σ τ) (a : Int) : τ × EnvState σ τ :=
  ((env.stepFn s.envState a).2,
   ⟨(env.stepFn s.envState a).1, s.resetCount, s.stepCount + 1,
    some (env.stepFn s.envState a).2⟩)

end TFPyEnvironment

open TFPyEnvironment in
/-- C10: current_time_step lazily initializes the environment: the cache
is None after construction; when the cache is None the call resets the
environment exactly once and caches the resulting time step; when a time
step is cached the call returns it with the whole state (environment,
reset and step counters, cache) unchanged — in particular any call after
the first returns the time step of the first call without resetting or
stepping again. -/
theorem current_time_step_lazy_init {σ τ : Type} (env : PyEnv σ τ) :
    (∀ s0 : σ, (mkEnvState s0 : EnvState σ τ).time_step = none) ∧
    (∀ s : EnvState σ τ, s.time_step = none →
       (current_time_step env s).1 = (env.resetFn s.envState).2 ∧
       (current_time_step env s).2.time_step = some (env.resetFn s.envState).2 ∧
       (current_time_step env s).2.resetCount = s.resetCount + 1 ∧
       (current_time_step env s).2.stepCount = s.stepCount ∧
       (current_time_step env s).2.envState = (env.resetFn s.envState).1) ∧
    (∀ (s : EnvState σ τ) (t : τ), s.time_step = some t →
       current_time_step env s = (t, s)) ∧
    (∀ s : EnvState σ τ, s.time_step = none →
       current_time_step env (current_time_step env s).2
         = ((current_time_step env s).1, (current_time_step env s).2)) := by
  refine ⟨fun s0 => rfl, fun s hs => ?_, fun s t hs => ?_, fun s hs => ?_⟩
  · simp [current_time_step, hs]
  · simp [current_time_step, hs]
  · simp [current_time_step, hs]

/-- Witness for C10 with a counter environment whose reset yields time
step 100: a call with time step 7 cached returns it and leaves the state
untouched. -/
theorem current_time_step_lazy_init_witness :
    TFPyEnvironment.current_time_step
        (⟨fun n => (n + 1, 100), fun n _ => (n + 2, 0)⟩ : TFPyEnvironment.PyEnv Nat Nat)
        ⟨6, 1, 0, some 7⟩
      = (7, ⟨6, 1, 0, some 7⟩) :=
  (current_time_step_lazy_init
      (⟨fun n => (n + 1, 100), fun n _ => (n + 2, 0)⟩ : TFPyEnvironment.PyEnv Nat Nat)).2.2.1
    ⟨6, 1, 0, some 7⟩ 7 rfl

/-! ## PPO train_eval iteration (agents/ppo/examples/train_eval.py)

One iteration of the session loop executes five ops.  Their ordering
constraints come from the code: collect_op runs to completion in its own
session call before the fetch of train_op (so collect precedes every
other op); the gather_all output tensors feed tf_agent.train, so
gather_all precedes the train computation; clear_replay_op is built under
control_dependencies([train_op]), so the train computation precedes the
clear; the fetched train_op is an identity under
control_dependencies([clear_replay_op]), so the clear precedes the
fetched output.  A trace is any execution order of the five ops
satisfying those constraints; the op effects on the replay-buffer state
follow the code (collect appends the collected episodes, gather_all reads
the whole buffer, train consumes the gathered batch running its bounded
num_epochs optimization passes, clear empties the buffer). -/

namespace TrainEval

inductive TrainOp
  | collectOp
  | gatherAllOp
  | trainComputeOp
  | clearOp
  | trainOutOp
deriving DecidableEq

open TrainOp

def allOps : List TrainOp := [collectOp, gatherAllOp, trainComputeOp, clearOp, trainOutOp]

instance : Fintype TrainOp :=
  ⟨⟨[collectOp, gatherAllOp, trainComputeOp, clearOp, trainOutOp], by decide⟩,
   by intro x; cases x <;> decide⟩

/-- The per-iteration state: the replay buffer contents, the output of
gather_all, the batch the train op consumed, and how many optimization
epochs the train op ran. -/
structure IterState (α : Type) where
  buffer : List α
  gathered : Option (List α)
  trained : Option (List α)
  epochsRun : Nat

/-- Effect of each op, for an iteration that collects newEpisodes and an
agent built with num_epochs = numEpochs. -/
def applyOp (newEpisodes : List α) (numEpochs : Nat) (s : IterState α) :
    TrainOp → IterState α
  | collectOp => ⟨s.buffer ++ newEpisodes, s.gathered, s.trained, s.epochsRun⟩
  | gatherAllOp => ⟨s.buffer, some s.buffer, s.trained, s.epochsRun⟩
  | trainComputeOp => ⟨s.buffer, s.gathered, s.gathered, numEpochs⟩
  | clearOp => ⟨[], s.gathered, s.trained, s.epochsRun⟩
  | trainOutOp => s

def runOps (newEpisodes : List α) (numEpochs : Nat) (t : List TrainOp)
    (s : IterState α) : IterState α :=
  t.foldl (applyOp newEpisodes numEpochs) s

/-- a executes before b in the trace t. -/
def Before (t : List TrainOp) (a b : TrainOp) : Prop :=
  t.indexOf a < t.indexOf b

instance (t : List TrainOp) (a b : TrainOp) : Decidable (Before t a b) :=
  Nat.decLt _ _

/-- The execution orders permitted by the two session calls and
control-dependency edges. -/
def ValidTrace (t : List TrainOp) : Prop :=
  t.Perm allOps ∧
  Before t collectOp gatherAllOp ∧
  Before t collectOp trainComputeOp ∧
  Before t collectOp clearOp ∧
  Before t collectOp trainOutOp ∧
  Before t gatherAllOp trainComputeOp ∧
  Before t trainComputeOp clearOp ∧
  Before t clearOp trainOutOp

instance (t : List TrainOp) : Decidable (ValidTrace t) := by
  unfold ValidTrace
  infer_instance

theorem validTrace_eq (t : List TrainOp) (h : ValidTrace t) : t = allOps := by
  have hlen : t.length = 5 := by
    have := h.1.length_eq
    simpa [allOps] using this
  obtain ⟨a, b, c, d, e, rfl⟩ : ∃ a b c d e, t = [a, b, c, d, e] := by
    match t, hlen with
    | [a, b, c, d, e], _ => exact ⟨a, b, c, d, e, rfl⟩
  revert h
  exact (by decide :
    ∀ a b c d e : TrainOp,
      ValidTrace [a, b, c, d, e] → [a, b, c, d, e] = allOps) a b c d e

end TrainEval

open TrainEval TrainEval.TrainOp in
/-- C5: in every execution order of one training-loop iteration permitted
by the session calls and control dependencies of the code, collection precedes
the gather/train computation, which precedes the buffer clear; the train
op consumes exactly the buffered batch present after collection (prior
buffer contents plus the newly collected episodes) with its bounded
number of epochs, and the iteration ends with an empty replay buffer, so
no buffered experience survives into the training of the next iteration. -/
theorem train_eval_iteration_order {α : Type} (t : List TrainOp)
    (buffer0 newEpisodes : List α) (numEpochs : Nat) (h : ValidTrace t) :
    (Before t collectOp gatherAllOp ∧ Before t gatherAllOp trainComputeOp ∧
      Before t trainComputeOp clearOp) ∧
    (runOps newEpisodes numEpochs t ⟨buffer0, none, none, 0⟩).trained
      = some (buffer0 ++ newEpisodes) ∧
    (runOps newEpisodes numEpochs t ⟨buffer0, none, none, 0⟩).epochsRun
      = numEpochs ∧
    (runOps newEpisodes numEpochs t ⟨buffer0, none, none, 0⟩).buffer = [] := by
  have ht : t = allOps := validTrace_eq t h
  subst ht
  refine ⟨⟨h.2.1, h.2.2.2.2.2.1, h.2.2.2.2.2.2.1⟩, ?_, ?_, ?_⟩ <;>
    simp [runOps, allOps, applyOp]

/-- Witness for C5: the canonical trace with prior buffer [7], newly
collected episodes [1, 2] and 25 epochs trains on [7, 1, 2] and ends with
an empty buffer. -/
theorem train_eval_iteration_order_witness :
    (TrainEval.runOps [1, 2] 25 TrainEval.allOps
        (⟨[7], none, none, 0⟩ : TrainEval.IterState Nat)).trained
      = some ([7] ++ [1, 2]) :=
  (train_eval_iteration_order TrainEval.allOps [7] [1, 2] 25 (by decide)).2.1

/-! ## PPOPolicy._distribution (agents/ppo/ppo_policy.py)

The actor network returns a nested structure (here: a list) whose entries
are either plain action tensors or distribution objects; _distribution
wraps each plain tensor in a Deterministic distribution and leaves
distribution objects unchanged, then sets the policy info to the
distribution parameters when the policy was built with collect=True and
to the empty tuple (modelled as none) otherwise.
ppo_utils.get_distribution_params is not part of the provided sources;
modelled from the spec ("collects auxiliary distribution parameters
needed for later gradient computation") as the list of the parameters of
each distribution. -/

namespace PPOPolicy

structure TimeStep (β : Type) where
  step_type : Nat
  reward : Int
  discount : Int
  observation : β

/-- A distribution object: either a Deterministic distribution with its
loc, or a parametric distribution carrying its parameters. -/
inductive Dist (β : Type)
  | deterministic (loc : β)
  | parametric (params : List β)

/-- What the actor network may return per action-spec leaf. -/
inductive ActionOrDistribution (β : Type)
  | tensor (t : β)
  | dist (d : Dist β)

structure Policy (β γ : Type) where
  collect : Bool
  observation_normalizer : Option (β → β)
  actor_network : TimeStep β → γ → List (ActionOrDistribution β) × γ

/-- The method _apply_actor_network: normalize the observation when a normalizer is
set, then run the actor network. -/
def apply_actor_network (p : Policy β γ) (ts : TimeStep β) (st : γ) :
    List (ActionOrDistribution β) × γ :=
  match p.observation_normalizer with
  | some nrm =>
      p.actor_network ⟨ts.step_type, ts.reward, ts.discount, nrm ts.observation⟩ st
  | none => p.actor_network ts st

/-- The helper _to_distribution: wrap a plain action tensor in a Deterministic
distribution, leave a distribution object unchanged. -/
def to_distribution : ActionOrDistribution β → Dist β
  | .tensor t => .deterministic t
  | .dist d => d

/-- Modelled from the spec: ppo_utils.get_distribution_params (not in the
provided sources) collects the parameters of a distribution. -/
def get_distribution_params : Dist β → List β
  | .deterministic loc => [loc]
  | .parametric ps => ps

structure PolicyStep (β γ : Type) where
  action : List (Dist β)
  state : γ
  info : Option (List (List β))

/-- The method _distribution: convert the actor-network outputs to distributions and
attach the distribution parameters as info iff collect is set. -/
def distribution (p : Policy β γ) (ts : TimeStep β) (st : γ) : PolicyStep β γ :=
  let res := apply_actor_network p ts st
  let dists := res.1.map to_distribution
  ⟨dists, res.2,
   if p.collect then some (dists.map get_distribution_params) else none⟩

/-- A concrete policy used as witness: collect mode, no normalizer, the
network emits one plain action tensor and one parametric distribution. -/
def examplePolicy : Policy Nat Nat :=
  ⟨true, none,
   fun ts st => ([.tensor ts.observation, .dist (.parametric [1, 2])], st + 1)⟩

end PPOPolicy

open PPOPolicy in
/-- C6: for every time step and policy state, PPOPolicy._distribution
converts each actor-network output to a distribution — wrapping a plain
action tensor in a Deterministic distribution and leaving distribution
objects unchanged — passes the network state through, and its policy info
equals the distribution parameters of those distributions when the policy
was built with collect=True and the empty tuple (none) when
collect=False. -/
theorem ppo_policy_distribution {β γ : Type} (p : Policy β γ)
    (ts : TimeStep β) (st : γ) :
    (PPOPolicy.distribution p ts st).action
      = (apply_actor_network p ts st).1.map to_distribution ∧
    (∀ t : β, to_distribution (.tensor t) = PPOPolicy.Dist.deterministic t) ∧
    (∀ d : PPOPolicy.Dist β, to_distribution (.dist d) = d) ∧
    (PPOPolicy.distribution p ts st).state = (apply_actor_network p ts st).2 ∧
    (p.collect = true →
       (PPOPolicy.distribution p ts st).info
         = some (((apply_actor_network p ts st).1.map to_distribution).map
             get_distribution_params)) ∧
    (p.collect = false → (PPOPolicy.distribution p ts st).info = none) := by
  refine ⟨rfl, fun t => rfl, fun d => rfl, rfl, fun hc => ?_, fun hc => ?_⟩ <;>
    simp [PPOPolicy.distribution, hc]

/-- Witness for C6: the example collect-mode policy reports the parameters
of the Deterministic wrap of its action tensor and of its parametric
distribution. -/
theorem ppo_policy_distribution_witness :
    (PPOPolicy.distribution PPOPolicy.examplePolicy ⟨0, 0, 1, 5⟩ 0).info
      = some (((PPOPolicy.apply_actor_network PPOPolicy.examplePolicy
            ⟨0, 0, 1, 5⟩ 0).1.map PPOPolicy.to_distribution).map
          PPOPolicy.get_distribution_params) :=
  (ppo_policy_distribution PPOPolicy.examplePolicy ⟨0, 0, 1, 5⟩ 0).2.2.2.2.1 rfl

/-! ## BaseV2.train (agents/tf_agent.py)

train validates its experience argument before handing it to the
subclass hook _train: a non-Trajectory raises ValueError (the code path,
although the docstring announces TypeError), a shape mismatch against
collect_data_spec raises ValueError, a time-axis mismatch against
train_sequence_length raises ValueError, and a _train result that is not
a LossInfo raises TypeError.  Tensors are embedded by their shapes;
nest_utils.is_batched_nested_tensors is not part of the provided sources
and is modelled from the call num_outer_dims=2: every tensor has its
spec shape plus two outer batch-and-time dimensions, shared across
tensors. -/

namespace TFAgent

structure Tensor where
  shape : List Nat

inductive Experience
  | trajectory (tensors : List Tensor)
  | notTrajectory

structure LossInfo where
  loss : Int
  extra : Int

/-- What the subclass hook _train may return. -/
inductive TrainResult
  | lossInfo (l : LossInfo)
  | notLossInfo

inductive TrainError
  | valueError
  | typeError
deriving DecidableEq

structure Agent where
  collect_data_spec : List (List Nat)
  train_sequence_length : Option Nat

/-- Modelled from the spec: nest_utils.is_batched_nested_tensors with
num_outer_dims=2 (not in the provided sources): the experience matches
the spec structure and every tensor carries two shared outer
batch-and-time dimensions over its spec shape. -/
def is_batched_nested_tensors (tensors : List Tensor) (specs : List (List Nat)) : Bool :=
  (tensors.length == specs.length) &&
  ((tensors.zip specs).all fun p =>
      (p.1.shape.length == p.2.length + 2) && (p.1.shape.drop 2 == p.2)) &&
  (match tensors with
   | [] => true
   | t0 :: _ => tensors.all fun t => t.shape.take 2 == t0.shape.take 2)

/-- The train_sequence_length check: when set to T, the time
axis (dimension 1) must equal T. -/
def checkSeqLen (ag : Agent) (tensors : List Tensor) : Bool :=
  match ag.train_sequence_length with
  | some T => tensors.all fun t => t.shape.getD 1 0 == T
  | none => true

/-- Run the subclass hook and type-check its result. -/
def runTrainFn (trainFn : Experience → TrainResult) (e : Experience) :
    Except TrainError LossInfo :=
  match trainFn e with
  | .lossInfo l => .ok l
  | .notLossInfo => .error .typeError

/-- BaseV2.train: the validation chain of tf_agent.py. -/
def train (ag : Agent) (trainFn : Experience → TrainResult) (e : Experience) :
    Except TrainError LossInfo :=
  match e with
  | .notTrajectory => .error .valueError
  | .trajectory tensors =>
      if is_batched_nested_tensors tensors ag.collect_data_spec then
        if checkSeqLen ag tensors then runTrainFn trainFn e
        else .error .valueError
      else .error .valueError

end TFAgent

open TFAgent in
/-- C9: BaseV2.train invokes the subclass _train only when all
validations pass and otherwise raises without training: a non-Trajectory
experience yields ValueError (not TypeError), a batch/time shape mismatch
with collect_data_spec yields ValueError, a mismatch of the time
axis with a set train_sequence_length yields ValueError (in both failure
cases the result is independent of _train), and when the validations pass
a _train result that is a LossInfo is returned while any other result
yields TypeError. -/
theorem base_v2_train_validation (ag : Agent)
    (f g : Experience → TrainResult) (tensors : List Tensor) (l : LossInfo) :
    (TFAgent.train ag f .notTrajectory = .error .valueError) ∧
    (is_batched_nested_tensors tensors ag.collect_data_spec = false →
       TFAgent.train ag f (.trajectory tensors) = .error .valueError ∧
       TFAgent.train ag f (.trajectory tensors)
         = TFAgent.train ag g (.trajectory tensors)) ∧
    (is_batched_nested_tensors tensors ag.collect_data_spec = true →
       checkSeqLen ag tensors = false →
       TFAgent.train ag f (.trajectory tensors) = .error .valueError ∧
       TFAgent.train ag f (.trajectory tensors)
         = TFAgent.train ag g (.trajectory tensors)) ∧
    (∀ T, ag.train_sequence_length = some T →
       (checkSeqLen ag tensors = true ↔
         ∀ t ∈ tensors, t.shape.getD 1 0 = T)) ∧
    (is_batched_nested_tensors tensors ag.collect_data_spec = true →
       checkSeqLen ag tensors = true →
       f (.trajectory tensors) = .lossInfo l →
       TFAgent.train ag f (.trajectory tensors) = .ok l) ∧
    (is_batched_nested_tensors tensors ag.collect_data_spec = true →
       checkSeqLen ag tensors = true →
       f (.trajectory tensors) = .notLossInfo →
       TFAgent.train ag f (.trajectory tensors) = .error .typeError) := by
  refine ⟨rfl, fun hb => ?_, fun hb hs => ?_, fun T hT => ?_,
          fun hb hs hf => ?_, fun hb hs hf => ?_⟩
  · exact ⟨by simp [TFAgent.train, hb], by simp [TFAgent.train, hb]⟩
  · exact ⟨by simp [TFAgent.train, hb, hs], by simp [TFAgent.train, hb, hs]⟩
  · simp [checkSeqLen, hT, List.all_eq_true]
  · simp [TFAgent.train, hb, hs, runTrainFn, hf]
  · simp [TFAgent.train, hb, hs, runTrainFn, hf]

/-- Witness for C9: an agent with spec shape [3] and sequence length 4
accepts a single [2, 4, 3] tensor and returns the LossInfo of the hook. -/
theorem base_v2_train_validation_witness :
    TFAgent.train (⟨[[3]], some 4⟩ : TFAgent.Agent)
        (fun _ => .lossInfo ⟨0, 0⟩) (.trajectory [⟨[2, 4, 3]⟩])
      = .ok ⟨0, 0⟩ :=
  (base_v2_train_validation ⟨[[3]], some 4⟩ (fun _ => .lossInfo ⟨0, 0⟩)
      (fun _ => .notLossInfo) [⟨[2, 4, 3]⟩] ⟨0, 0⟩).2.2.2.2.1
    (by decide) (by decide) rfl

/-! ## MaskedCategorical (distributions/masked.py)

The constructor casts the mask to booleans (nonzero = keep) and replaces
the logits at masked-out positions with -inf before handing them to the
Categorical base class.  Logits are embedded as rationals extended with a
negative-infinity point; the Categorical semantics is parametrized by any
strictly positive exponential-like weight function e on finite logits,
with -inf weighing 0, so probabilities are weights normalized by their
sum, and sampling is the inverse-CDF scan of the weight list. -/

namespace MaskedCategorical

/-- A logit: a finite value, or the -inf the constructor substitutes. -/
inductive Logit
  | negInf
  | val (q : ℚ)
deriving DecidableEq

/-- The effective logits built by __init__:
tf.where(mask, logits, neg_inf) with the mask cast to bool. -/
def maskedLogits (logits : List ℚ) (mask : List Int) : List Logit :=
  List.zipWith (fun l m => if m = 0 then Logit.negInf else Logit.val l)
    logits mask

/-- The weight a categorical distribution puts on a logit, for a positive
exponential-like function e: exp(-inf) = 0. -/
def weight (e : ℚ → ℚ) : Logit → ℚ
  | .negInf => 0
  | .val q => e q

/-- Probability of class i under a categorical with the given logits. -/
def probs (e : ℚ → ℚ) (ls : List Logit) (i : Nat) : ℚ :=
  weight e (ls.getD i .negInf) / (ls.map (weight e)).sum

/-- Probability of class i under a plain categorical on finite logits. -/
def probsOrig (e : ℚ → ℚ) (logits : List ℚ) (i : Nat) : ℚ :=
  e (logits.getD i 0) / (logits.map e).sum

/-- Inverse-CDF sampling from a weight list at position r. -/
def sampleIdx : List ℚ → ℚ → Nat
  | [], _ => 0
  | w :: ws, r => if r < w then 0 else sampleIdx ws (r - w) + 1

theorem sampleIdx_pos (ws : List ℚ) (r : ℚ) (hr0 : 0 ≤ r) (hrs : r < ws.sum)
    (hnn : ∀ w ∈ ws, 0 ≤ w) : 0 < ws.getD (sampleIdx ws r) 0 := by
  induction ws generalizing r with
  | nil => simp at hrs; linarith
  | cons w ws ih =>
      by_cases hlt : r < w
      · simp only [sampleIdx, if_pos hlt]
        calc (0 : ℚ) ≤ r := hr0
          _ < w := hlt
      · simp only [sampleIdx, if_neg hlt]
        have hsum : r - w < ws.sum := by
          simp only [List.sum_cons] at hrs
          linarith
        exact ih (r - w) (by linarith [not_lt.mp hlt]) hsum
          (fun x hx => hnn x (List.mem_cons_of_mem w hx))

theorem getD_map_weight (e : ℚ → ℚ) :
    ∀ (ls : List Logit) (k : Nat),
      (ls.map (weight e)).getD k 0 = weight e (ls.getD k .negInf) := by
  intro ls
  induction ls with
  | nil => intro k; rfl
  | cons l ls ih =>
      intro k
      cases k with
      | zero => rfl
      | succ k => exact ih k

theorem maskedLogits_getD (logits : List ℚ) (mask : List Int)
    (hlen : logits.length = mask.length) :
    ∀ k, k < logits.length →
      (maskedLogits logits mask).getD k .negInf
        = if mask.getD k 1 = 0 then .negInf else .val (logits.getD k 0) := by
  induction logits generalizing mask with
  | nil => intro k hk; simp at hk
  | cons l ls ih =>
      cases mask with
      | nil => intro k hk; simp at hlen
      | cons m ms =>
          intro k hk
          cases k with
          | zero => rfl
          | succ k =>
              simp only [List.length_cons, Nat.add_lt_add_iff_right] at hk
              simp only [List.length_cons, Nat.add_right_cancel_iff] at hlen
              exact ih ms hlen k hk

theorem maskedLogits_length (logits : List ℚ) (mask : List Int)
    (hlen : logits.length = mask.length) :
    (maskedLogits logits mask).length = logits.length := by
  simp [maskedLogits, hlen]

theorem weight_nonneg (e : ℚ → ℚ) (he : ∀ q, 0 < e q) (x : Logit) :
    0 ≤ weight e x := by
  cases x with
  | negInf => exact le_refl 0
  | val q => exact le_of_lt (he q)

end MaskedCategorical

open MaskedCategorical in
/-- C8: the effective logits of MaskedCategorical equal the input logits at
every position where the mask is nonzero and are -inf where the mask is
zero; hence a masked-out class has probability zero and is never chosen
by inverse-CDF sampling, while the relative probabilities of unmasked
classes match those of the unmasked categorical. -/
theorem masked_categorical_logits (e : ℚ → ℚ) (he : ∀ q, 0 < e q)
    (logits : List ℚ) (mask : List Int) (i j : Nat)
    (hlen : logits.length = mask.length) :
    (mask.getD i 1 ≠ 0 → i < logits.length →
       (maskedLogits logits mask).getD i .negInf = .val (logits.getD i 0)) ∧
    (mask.getD i 1 = 0 → i < logits.length →
       (maskedLogits logits mask).getD i .negInf = .negInf ∧
       probs e (maskedLogits logits mask) i = 0) ∧
    (mask.getD i 1 ≠ 0 → mask.getD j 1 ≠ 0 →
       i < logits.length → j < logits.length →
       probs e (maskedLogits logits mask) i * probsOrig e logits j
         = probs e (maskedLogits logits mask) j * probsOrig e logits i) ∧
    (∀ r : ℚ, 0 ≤ r →
       r < ((maskedLogits logits mask).map (weight e)).sum →
       mask.getD (sampleIdx ((maskedLogits logits mask).map (weight e)) r) 1
         ≠ 0) := by
  refine ⟨fun hm hi => ?_, fun hm hi => ?_, fun hmi hmj hi hj => ?_,
          fun r hr0 hrs => ?_⟩
  · rw [maskedLogits_getD logits mask hlen i hi, if_neg hm]
  · rw [probs, maskedLogits_getD logits mask hlen i hi, if_pos hm]
    exact ⟨rfl, by simp [weight]⟩
  · rw [probs, probs, probsOrig, probsOrig,
        maskedLogits_getD logits mask hlen i hi, if_neg hmi,
        maskedLogits_getD logits mask hlen j hj, if_neg hmj]
    simp only [weight]
    ring
  · set ws := (maskedLogits logits mask).map (weight e) with hws
    set k := sampleIdx ws r with hk
    have hpos : 0 < ws.getD k 0 := by
      refine sampleIdx_pos ws r hr0 hrs ?_
      intro w hw
      obtain ⟨x, _, rfl⟩ := List.mem_map.mp hw
      exact weight_nonneg e he x
    have hklen : k < (maskedLogits logits mask).length := by
      by_contra hge
      have hge' : (maskedLogits logits mask).length ≤ k := not_lt.mp hge
      rw [hws, getD_map_weight e, List.getD_eq_default _ _ hge'] at hpos
      simp [weight] at hpos
    have hklog : k < logits.length := by
      rwa [maskedLogits_length logits mask hlen] at hklen
    intro hzero
    rw [hws, getD_map_weight e,
        maskedLogits_getD logits mask hlen k hklog, if_pos hzero] at hpos
    simp [weight] at hpos

/-- Witness for C8 with logits [1, 2], mask [0, 1] and constant weight 1:
position 0 is masked out, its effective logit is -inf and its probability
is zero. -/
theorem masked_categorical_logits_witness :
    (MaskedCategorical.maskedLogits [1, 2] [0, 1]).getD 0
        MaskedCategorical.Logit.negInf = MaskedCategorical.Logit.negInf ∧
    MaskedCategorical.probs (fun _ => 1)
        (MaskedCategorical.maskedLogits [1, 2] [0, 1]) 0 = 0 :=
  (masked_categorical_logits (fun _ => 1) (fun _ => one_pos) [1, 2] [0, 1] 0 1
      rfl).2.1 rfl (by norm_num)

end TFAgents
